import Mathlib

/-!
Verification development for `pycsw/core/admin.py`: the record ingestion and
synchronization pipeline (`load_records`), the export flow (`export_records`)
and the harvest refresh flow (`refresh_harvested_records`).

The Python functions are shallowly embedded: filesystem contents, repository
outcomes and remote-call outcomes are explicit data (oracles recorded in the
input values), and every observable effect (repository calls, log calls,
file writes, file removals) is recorded in an explicit action trace.
Machine-level string operations used by the source (`sorted`, `endswith`,
`in`, glob matching) are modelled structurally on the underlying character
lists, matching Python's code-point semantics.
-/

namespace PycswAdmin

/-! ## Python string primitives

Python compares strings lexicographically by Unicode code point; `sorted`
uses exactly this order.  `endswith`, `startswith` and the `in` operator are
substring tests.  All are modelled by structural recursion on `String.data`.
-/

/-- Code-point lexicographic order on character lists, as Python compares
strings. -/
def lexLe : List Char → List Char → Bool
  | [], _ => true
  | _ :: _, [] => false
  | a :: as, b :: bs =>
      if a.toNat < b.toNat then true
      else if b.toNat < a.toNat then false
      else lexLe as bs

/-- Python's `a <= b` on strings: code-point lexicographic comparison. -/
def pyStrLe (a b : String) : Bool := lexLe a.data b.data

/-- Whether `sub` occurs at the head of `l` (helper for substring and
suffix tests). -/
def leadMatch : List Char → List Char → Bool
  | [], _ => true
  | _ :: _, [] => false
  | a :: as, b :: bs => a == b && leadMatch as bs

/-- Whether `sub` occurs somewhere inside `l`. -/
def hasSub (sub : List Char) : List Char → Bool
  | [] => sub.isEmpty
  | c :: cs => leadMatch sub (c :: cs) || hasSub sub cs

/-- Python's `sub in s` on strings. -/
def strContains (s sub : String) : Bool := hasSub sub.data s.data

/-- Python's `s.endswith(suffix)`. -/
def strEndsWith (s suffix : String) : Bool :=
  leadMatch suffix.data.reverse s.data.reverse

/-- Python's `s.startswith(p)` (used for glob's leading-dot rule). -/
def strStartsWith (s p : String) : Bool := leadMatch p.data s.data

theorem lexLe_total (a b : List Char) : lexLe a b = true ∨ lexLe b a = true := by
  induction a generalizing b with
  | nil => exact .inl rfl
  | cons x xs ih =>
    cases b with
    | nil => exact .inr rfl
    | cons y ys =>
      by_cases hxy : x.toNat < y.toNat
      · exact .inl (by simp [lexLe, hxy])
      · by_cases hyx : y.toNat < x.toNat
        · exact .inr (by simp [lexLe, hyx, hxy])
        · rcases ih ys with h | h
          · exact .inl (by simp [lexLe, hxy, hyx, h])
          · exact .inr (by simp [lexLe, hxy, hyx, h])

theorem lexLe_trans {a b c : List Char} (hab : lexLe a b = true)
    (hbc : lexLe b c = true) : lexLe a c = true := by
  induction a generalizing b c with
  | nil => rfl
  | cons x xs ih =>
    cases b with
    | nil => simp [lexLe] at hab
    | cons y ys =>
      cases c with
      | nil => simp [lexLe] at hbc
      | cons z zs =>
        simp only [lexLe] at hab hbc ⊢
        by_cases h1 : x.toNat < y.toNat
        · by_cases h3 : y.toNat < z.toNat
          · have h : x.toNat < z.toNat := by omega
            simp [h]
          · by_cases h4 : z.toNat < y.toNat
            · simp [h3, h4] at hbc
            · have h : x.toNat < z.toNat := by omega
              simp [h]
        · by_cases h2 : y.toNat < x.toNat
          · simp [h1, h2] at hab
          · by_cases h3 : y.toNat < z.toNat
            · have h : x.toNat < z.toNat := by omega
              simp [h]
            · by_cases h4 : z.toNat < y.toNat
              · simp [h3, h4] at hbc
              · have h5 : ¬ x.toNat < z.toNat := by omega
                have h6 : ¬ z.toNat < x.toNat := by omega
                simp only [h1, h2, if_false, ite_false] at hab
                simp only [h3, h4, if_false, ite_false] at hbc
                simp only [h5, h6, if_false, ite_false]
                exact ih hab hbc

theorem lexLe_antisymm {a b : List Char} (hab : lexLe a b = true)
    (hba : lexLe b a = true) : a = b := by
  induction a generalizing b with
  | nil =>
    cases b with
    | nil => rfl
    | cons y ys => simp [lexLe] at hba
  | cons x xs ih =>
    cases b with
    | nil => simp [lexLe] at hab
    | cons y ys =>
      simp only [lexLe] at hab hba
      by_cases hxy : x.toNat < y.toNat
      · have h : ¬ y.toNat < x.toNat := by omega
        simp [hxy, h] at hba
      · by_cases hyx : y.toNat < x.toNat
        · simp [hxy, hyx] at hab
        · have hxy' : x.toNat = y.toNat := by omega
          simp only [hxy, hyx, if_false, ite_false] at hab hba
          have hx : x = y := Char.ext (UInt32.ext hxy')
          exact hx ▸ congrArg (x :: ·) (ih hab hba)

theorem pyStrLe_total (a b : String) : pyStrLe a b = true ∨ pyStrLe b a = true :=
  lexLe_total a.data b.data

theorem pyStrLe_trans {a b c : String} (hab : pyStrLe a b = true)
    (hbc : pyStrLe b c = true) : pyStrLe a c = true :=
  lexLe_trans hab hbc

theorem pyStrLe_antisymm {a b : String} (hab : pyStrLe a b = true)
    (hba : pyStrLe b a = true) : a = b :=
  String.ext (lexLe_antisymm hab hba)

/-! ## Filesystem model and the source scanner of `load_records`

`load_records` builds `file_list` from `xml_dirpath`:
single file → that file; `recursive` → `os.walk` keeping names with
`mfile.endswith('.xml')`; otherwise `glob('*.xml') + glob('*.json')`
directly inside the directory.  Directory contents are modelled as a tree
of named entries; `os.walk` is modelled top-down, and glob's `*.ext`
pattern matches any directory entry — regular file or subdirectory —
whose name ends in `.ext` and does not start with a dot (glob hides
dot-files but does not restrict to regular files). -/

/-- A directory entry: a regular file or a subdirectory with its own
entries. -/
inductive Entry : Type where
  | file (name : String)
  | dir (name : String) (entries : List Entry)

/-- Python's `os.path.join(root, name)` for a simple name. -/
def pathJoin (root name : String) : String := root ++ "/" ++ name

/-- Names of the regular files among `es` (the `files` component that
`os.walk` reports for one directory). -/
def fileNames : List Entry → List String
  | [] => []
  | .file n :: rest => n :: fileNames rest
  | .dir _ _ :: rest => fileNames rest

mutual

/-- Model of `os.walk(root)` (top-down): the directory itself first, then
each subdirectory in order. -/
def walk (root : String) (es : List Entry) : List (String × List String) :=
  (root, fileNames es) :: walkSubs root es
termination_by sizeOf es + 1

/-- Walk results contributed by the subdirectories among `es`. -/
def walkSubs (root : String) (es : List Entry) : List (String × List String) :=
  match es with
  | [] => []
  | .file _ :: rest => walkSubs root rest
  | .dir name sub :: rest => walk (pathJoin root name) sub ++ walkSubs root rest
termination_by sizeOf es

end

/-- All (directory, file-name) pairs of the tree rooted at `root`, in walk
order. -/
def treeFiles (root : String) (es : List Entry) : List (String × String) :=
  (walk root es).flatMap (fun rd => rd.2.map (fun n => (rd.1, n)))

/-- Glob's `*.ext` match on one name: ends with `ext`, and glob does not
match names starting with a dot. -/
def globMatch (ext name : String) : Bool :=
  strEndsWith name ext && !(strStartsWith name ".")

/-- Names of all entries among `es`, regular files and subdirectories
alike (what glob pattern-matches against). -/
def entryNames : List Entry → List String
  | [] => []
  | .file n :: rest => n :: entryNames rest
  | .dir n _ :: rest => n :: entryNames rest

/-- Model of `glob(os.path.join(dirpath, '*' + ext))`: every directory
entry — including a subdirectory — whose name matches, as a full path. -/
def globEntries (root : String) (es : List Entry) (ext : String) : List String :=
  ((entryNames es).filter (globMatch ext)).map (pathJoin root)

/-- The shape of `xml_dirpath` as the source probes it: either
`os.path.isfile` holds, or it is a directory with the given entries. -/
inductive PathSpec : Type where
  | singleFile (path : String)
  | directory (path : String) (entries : List Entry)

/-- The `file_list` built by `load_records` (lines 339-350 of
`pycsw/core/admin.py`): one file, or an `os.walk` collecting `.xml` names,
or `glob('*.xml') + glob('*.json')`. -/
def scan_files (spec : PathSpec) (recursive : Bool) : List String :=
  match spec with
  | .singleFile p => [p]
  | .directory root es =>
      if recursive then
        (walk root es).flatMap
          (fun rd => (rd.2.filter (fun n => strEndsWith n ".xml")).map (pathJoin rd.1))
      else
        globEntries root es ".xml" ++ globEntries root es ".json"

/-! ## The `load_records` processing loop

The loop (lines 355-401 of `pycsw/core/admin.py`) iterates over
`sorted(file_list)`.  Per file it reads the document inside
`try: json.load / except JSONDecodeError: etree.parse / except
XMLSyntaxError: continue / except Exception: continue`, then calls
`metadata.parse_record` inside its own try/except, then for each extracted
record calls `repo.insert`; on any insert exception it calls `repo.update`
and marks the file when `force_update` is set, otherwise logs the error
(with a shorter message for a `DBAPIError` carrying `args`).

Python's exception rule matters here: `etree.parse` runs *inside* the
`except JSONDecodeError` handler, so an exception it raises is NOT caught
by the sibling `except` clauses of the same `try` and propagates out of
`load_records`.  Likewise `repo.update` runs inside the `except Exception`
handler of the insert try, so an exception it raises propagates.  The
embedding returns `Except PyExc` to model these uncaught exceptions.

Each file carries oracles describing what the filesystem, the parser and
the repository would do for it. -/

/-- Outcome of the read/decode try-block for one file. -/
inductive ReadOutcome : Type where
  /-- `json.load` succeeded. -/
  | jsonOk
  /-- `json.load` raised `JSONDecodeError`; `etree.parse` (run inside that
  handler) succeeded. -/
  | jsonErrThenXmlOk
  /-- `json.load` raised `JSONDecodeError`; `etree.parse` raised.  The flag
  records whether the raised exception is `etree.XMLSyntaxError` (a
  well-formedness error) as opposed to some other exception. -/
  | jsonErrThenXmlRaise (notWellFormed : Bool)
  /-- `open`/`json.load` raised an exception other than `JSONDecodeError`,
  caught by the final `except Exception` clause. -/
  | otherReadErr
deriving DecidableEq

/-- Outcome of `repo.insert` for one record, classified as the claims
classify it.  The source does not inspect the class beyond
`isinstance(err, DBAPIError) and err.args` for the log message. -/
inductive InsertResult : Type where
  /-- Insert succeeded. -/
  | ok
  /-- Duplicate-identifier conflict (a `DBAPIError` with `args`). -/
  | conflict
  /-- Any other storage-level failure; the flag records whether it is a
  `DBAPIError` with non-empty `args`. -/
  | storageErr (isDbapiWithArgs : Bool)
deriving DecidableEq

/-- Oracles for one record extracted from a file: what `repo.insert` does,
and whether `repo.update` (only reached under `force_update`) raises. -/
structure RecItem : Type where
  insert : InsertResult
  updateRaises : Bool
deriving DecidableEq

/-- One candidate file with its oracles: the read/decode outcome and the
result of `metadata.parse_record` (`none` models parse_record raising,
`some recs` the extracted records). -/
structure FileItem : Type where
  path : String
  read : ReadOutcome
  parsed : Option (List RecItem)
deriving DecidableEq

/-- An exception escaping `load_records`. -/
inductive PyExc : Type where
  /-- Raised by `etree.parse` inside the `except JSONDecodeError` handler;
  not caught by the sibling `except` clauses. -/
  | xmlParseExc (notWellFormed : Bool)
  /-- Raised by `repo.update` inside the `except Exception` handler of the
  insert try. -/
  | updateExc
deriving DecidableEq

/-- Observable repository and logger calls of one `load_records` run. -/
inductive Action : Type where
  | insertCall (path : String)
  | updateCall (path : String)
  | logInserted (path : String)
  | logUpdated (path : String)
  /-- `LOGGER.error('ERROR: %s not inserted: ...')`; the flag tells which
  of the two message branches ran (`DBAPIError` with `args` or not). -/
  | logNotInserted (path : String) (dbapiMsg : Bool)
  /-- A decode failure logged by the `except` clauses of the read block. -/
  | logDecodeSkip (path : String)
  /-- `LOGGER.exception('Could not parse ...')`. -/
  | logParseSkip (path : String)
deriving DecidableEq

/-- State threaded through the loop: `loaded_files` (a Python `set`,
modelled as an insertion-ordered duplicate-free list) and the action
trace. -/
structure LoadState : Type where
  loaded : List String
  actions : List Action
deriving DecidableEq

/-- `loaded_files.add(recfile)`: set insertion. -/
def addLoaded (l : List String) (p : String) : List String :=
  if p ∈ l then l else l ++ [p]

/-- One iteration of `for rec in record:` — `repo.insert`, then on any
exception either the `force_update` update path or the error log. -/
def processRecord (forceUpdate : Bool) (path : String) (st : LoadState)
    (r : RecItem) : Except PyExc LoadState :=
  let st1 : LoadState := { st with actions := st.actions ++ [.insertCall path] }
  match r.insert with
  | .ok =>
      .ok { st1 with loaded := addLoaded st1.loaded path,
                     actions := st1.actions ++ [.logInserted path] }
  | e =>
      if forceUpdate then
        let st2 : LoadState := { st1 with actions := st1.actions ++ [.updateCall path] }
        if r.updateRaises then .error .updateExc
        else
          .ok { st2 with loaded := addLoaded st2.loaded path,
                         actions := st2.actions ++ [.logUpdated path] }
      else
        .ok { st1 with actions := st1.actions ++
          [.logNotInserted path (match e with
            | .conflict => true
            | .storageErr b => b
            | .ok => false)] }

/-- One iteration of `for recfile in sorted(file_list):` — read, parse,
then the per-record loop. -/
def processFile (forceUpdate : Bool) (st : LoadState) (f : FileItem) :
    Except PyExc LoadState :=
  match f.read with
  | .jsonErrThenXmlRaise nwf => .error (.xmlParseExc nwf)
  | .otherReadErr => .ok { st with actions := st.actions ++ [.logDecodeSkip f.path] }
  | .jsonOk | .jsonErrThenXmlOk =>
      match f.parsed with
      | none => .ok { st with actions := st.actions ++ [.logParseSkip f.path] }
      | some recs => recs.foldlM (processRecord forceUpdate f.path) st

/-- Python's `sorted(file_list)`: a stable sort in code-point lexicographic
order on the full path. -/
def sortFiles (files : List FileItem) : List FileItem :=
  List.insertionSort (fun f g => pyStrLe f.path g.path = true) files

/-- The `load_records` batch over already-scanned candidate files: iterate
over `sorted(file_list)` accumulating `loaded_files` and the action trace;
an exception raised past the per-file handlers aborts the whole run. -/
def load_records (forceUpdate : Bool) (files : List FileItem) :
    Except PyExc LoadState :=
  (sortFiles files).foldlM (processFile forceUpdate) ⟨[], []⟩

/-! ## The `export_records` loop

Lines 427-468 of `pycsw/core/admin.py`: for every repository record,
sanitize the identifier, pick the extension from `metadata_type`
(`'json' in metadata_type`), and write
`'<?xml version="1.0" encoding="UTF-8"?>\n'` followed by the record's
`xml` field.  A write failure is logged, a leftover file at that path is
removed, and the loop continues; successful writes are added to
`exported_files`.  The sanitizer `util.secure_filename` lives outside this
module and is passed in as a function. -/

/-- One repository record as export sees it, with its oracles: whether the
`open`/`write` block raises, and whether `os.path.exists(filename)` holds
after such a failure (a leftover partial or empty file). -/
structure ExpRecord : Type where
  identifier : String
  metadataType : String
  xml : String
  writeFails : Bool
  leftoverExists : Bool
deriving DecidableEq

/-- Observable filesystem and logger calls of one `export_records` run. -/
inductive ExpAction : Type where
  /-- A fully successful write of `content` to `filename`. -/
  | wroteFile (filename content : String)
  /-- `LOGGER.exception('Error writing ... to disk')`. -/
  | logWriteError (filename : String)
  /-- `os.remove(filename)` of the leftover file. -/
  | removedFile (filename : String)
deriving DecidableEq

/-- State of the export loop: `exported_files` (a Python `set`) and the
action trace. -/
structure ExportState : Type where
  exported : List String
  actions : List ExpAction
deriving DecidableEq

/-- The XML declaration line the source writes before every document. -/
def xmlDecl : String := "<?xml version=\"1.0\" encoding=\"UTF-8\"?>\n"

/-- The output path for one record:
`os.path.join(dirpath, '%s.%s' % (secure_filename(identifier), extension))`
with `extension = 'json' if 'json' in metadata_type else 'xml'`. -/
def exportFilename (dirpath : String) (secureFilename : String → String)
    (r : ExpRecord) : String :=
  pathJoin dirpath (secureFilename r.identifier ++ "." ++
    (if strContains r.metadataType "json" then "json" else "xml"))

/-- One iteration of `for record in records.all():`. -/
def processExport (dirpath : String) (secureFilename : String → String)
    (st : ExportState) (r : ExpRecord) : ExportState :=
  let filename := exportFilename dirpath secureFilename r
  if r.writeFails then
    { st with actions := st.actions ++ [.logWriteError filename] ++
        (if r.leftoverExists then [.removedFile filename] else []) }
  else
    { st with exported := addLoaded st.exported filename,
              actions := st.actions ++ [.wroteFile filename (xmlDecl ++ r.xml)] }

/-- The `export_records` loop over all repository records. -/
def export_records (dirpath : String) (secureFilename : String → String)
    (records : List ExpRecord) : ExportState :=
  records.foldl (processExport dirpath secureFilename) ⟨[], []⟩

/-! ## The `refresh_harvested_records` flow

Lines 471-507 of `pycsw/core/admin.py`: query the repository for records
with `mdsource != 'local'`; if the returned count is positive, construct
the `CatalogueServiceWeb` client and harvest each record, rewriting the
legacy ISO schema identifier first; otherwise log `'No harvested records'`
and return. -/

/-- One non-local repository record as harvest refresh sees it, with the
oracle telling whether `csw.harvest` raises for it. -/
structure HarvestRecord : Type where
  source : String
  schemaTag : String
  identifier : String
  harvestFails : Bool
deriving DecidableEq

/-- Observable calls of one `refresh_harvested_records` run. -/
inductive HarvestAction : Type where
  /-- `LOGGER.info('Refreshing %s harvested records', count)`. -/
  | logRefreshing (count : Nat)
  /-- `CatalogueServiceWeb(url)` construction. -/
  | constructClient (url : String)
  /-- `LOGGER.info('Harvesting %s (identifier = %s) ...')`. -/
  | logHarvesting (source identifier : String)
  /-- `csw.harvest(source, schema)` with the schema actually sent. -/
  | harvestCall (source schemaTag : String)
  /-- `LOGGER.info(csw.response)` after a successful harvest. -/
  | logResponse
  /-- `LOGGER.exception('Could not harvest')`. -/
  | logHarvestError
  /-- `LOGGER.info('No harvested records')`. -/
  | logNoRecords
deriving DecidableEq

/-- The in-loop rewrite: the exact legacy ISO identifier is replaced before
the harvest call, every other schema tag is sent unchanged. -/
def normalizeSchema (s : String) : String :=
  if s = "http://www.isotc211.org/2005/gmd"
  then "http://www.isotc211.org/schemas/2005/gmd/" else s

/-- One iteration of `for rec in records:` in the harvest refresh loop. -/
def processHarvest (rec : HarvestRecord) : List HarvestAction :=
  [.logHarvesting rec.source rec.identifier,
   .harvestCall rec.source (normalizeSchema rec.schemaTag)] ++
  (if rec.harvestFails then [.logHarvestError] else [.logResponse])

/-- The `refresh_harvested_records` flow, given the count and records the
repository query returned. -/
def refresh_harvested_records (url : String) (count : Nat)
    (records : List HarvestRecord) : List HarvestAction :=
  if count > 0 then
    .logRefreshing count :: .constructClient url ::
      records.flatMap processHarvest
  else
    [.logNoRecords]

/-! ## Pure description of one `load_records` run

The loop is a fold; the following pure functions describe, per record and
per file, whether the iteration raises, whether it adds the file to
`loaded_files`, and which actions it emits.  The refinement lemmas below
prove the fold equal to this description. -/

/-- Whether `repo.insert` succeeded for this record. -/
def insertOk : InsertResult → Bool
  | .ok => true
  | _ => false

/-- The `isinstance(err, DBAPIError) and err.args` test selecting the log
message branch. -/
def dbapiFlag : InsertResult → Bool
  | .ok => false
  | .conflict => true
  | .storageErr b => b

/-- The record iteration raises (uncaught `repo.update` exception): only
when insert failed, `force_update` is set, and update raises. -/
def recAborts (fu : Bool) (r : RecItem) : Bool :=
  fu && !insertOk r.insert && r.updateRaises

/-- Provided the iteration does not raise, the record adds its file to
`loaded_files` iff insert succeeded or `force_update` routed it through
the update path. -/
def recMarks (fu : Bool) (r : RecItem) : Bool := insertOk r.insert || fu

/-- Actions emitted by one non-raising record iteration. -/
def recActions (fu : Bool) (p : String) (r : RecItem) : List Action :=
  .insertCall p ::
    (if insertOk r.insert then [.logInserted p]
     else if fu then [.updateCall p, .logUpdated p]
     else [.logNotInserted p (dbapiFlag r.insert)])

/-- The records `metadata.parse_record` delivered for this file (empty when
the read or the parse failed). -/
def extractedRecs (f : FileItem) : List RecItem :=
  match f.read with
  | .jsonOk | .jsonErrThenXmlOk => f.parsed.getD []
  | _ => []

/-- The file iteration finishes without an uncaught exception. -/
def fileCompletes (fu : Bool) (f : FileItem) : Bool :=
  match f.read with
  | .jsonErrThenXmlRaise _ => false
  | _ => (extractedRecs f).all (fun r => !recAborts fu r)

/-- Provided the iteration does not raise, the file ends up in
`loaded_files` iff at least one of its records marks it. -/
def fileMarks (fu : Bool) (f : FileItem) : Bool :=
  (extractedRecs f).any (recMarks fu)

/-- Actions emitted by one non-raising file iteration. -/
def fileActions (fu : Bool) (f : FileItem) : List Action :=
  match f.read with
  | .jsonErrThenXmlRaise _ => []
  | .otherReadErr => [.logDecodeSkip f.path]
  | .jsonOk | .jsonErrThenXmlOk =>
      match f.parsed with
      | none => [.logParseSkip f.path]
      | some recs => recs.flatMap (recActions fu f.path)

/-- Pure per-file state transformer equal to a non-raising
`processFile`. -/
def pureStep (fu : Bool) (st : LoadState) (f : FileItem) : LoadState :=
  ⟨if fileMarks fu f then addLoaded st.loaded f.path else st.loaded,
   st.actions ++ fileActions fu f⟩

theorem addLoaded_idem (l : List String) (p : String) :
    addLoaded (addLoaded l p) p = addLoaded l p := by
  by_cases h : p ∈ l <;> simp [addLoaded, h]

theorem mem_addLoaded {l : List String} {p q : String} :
    q ∈ addLoaded l p ↔ q ∈ l ∨ q = p := by
  by_cases h : p ∈ l <;> simp [addLoaded, h]
  exact fun hq => hq ▸ h

theorem nodup_addLoaded {l : List String} (h : l.Nodup) (p : String) :
    (addLoaded l p).Nodup := by
  by_cases hp : p ∈ l
  · simpa [addLoaded, hp] using h
  · simp only [addLoaded, hp, ite_false]
    exact List.Nodup.append h (List.nodup_singleton p) (by simpa using hp)

theorem processRecord_eq {fu : Bool} {r : RecItem} (p : String)
    (st : LoadState) (h : recAborts fu r = false) :
    processRecord fu p st r =
      .ok ⟨if recMarks fu r then addLoaded st.loaded p else st.loaded,
           st.actions ++ recActions fu p r⟩ := by
  cases hr : r.insert <;> cases fu <;> cases hu : r.updateRaises <;>
    simp_all [processRecord, recAborts, recMarks, recActions, insertOk,
      dbapiFlag]

theorem processRecord_abort {fu : Bool} {r : RecItem} (p : String)
    (st : LoadState) (h : recAborts fu r = true) :
    processRecord fu p st r = .error .updateExc := by
  cases hr : r.insert <;> cases fu <;> cases hu : r.updateRaises <;>
    simp_all [processRecord, recAborts, insertOk]

theorem foldlM_processRecord_eq {fu : Bool} (p : String)
    (recs : List RecItem) (st : LoadState)
    (h : ∀ r ∈ recs, recAborts fu r = false) :
    recs.foldlM (processRecord fu p) st =
      .ok ⟨if recs.any (recMarks fu) then addLoaded st.loaded p else st.loaded,
           st.actions ++ recs.flatMap (recActions fu p)⟩ := by
  induction recs generalizing st with
  | nil => simp; rfl
  | cons r rest ih =>
    have hr : recAborts fu r = false := h r (by simp)
    have hrest : ∀ x ∈ rest, recAborts fu x = false :=
      fun x hx => h x (by simp [hx])
    rw [List.foldlM_cons, processRecord_eq p st hr]
    show rest.foldlM (processRecord fu p) _ = _
    rw [ih _ hrest]
    by_cases hm : recMarks fu r = true <;>
      simp [hm, addLoaded_idem, List.append_assoc]

theorem foldlM_processRecord_err {fu : Bool} (p : String)
    {recs : List RecItem} (st : LoadState)
    (h : recs.all (fun r => !recAborts fu r) = false) :
    recs.foldlM (processRecord fu p) st = .error PyExc.updateExc := by
  induction recs generalizing st with
  | nil => simp at h
  | cons r rest ih =>
    by_cases hr : recAborts fu r = true
    · rw [List.foldlM_cons, processRecord_abort p st hr]
      rfl
    · have hr' : recAborts fu r = false := by
        cases hcase : recAborts fu r
        · rfl
        · exact absurd hcase hr
      have hrest : rest.all (fun x => !recAborts fu x) = false := by
        simp only [List.all_cons, hr', Bool.not_false, Bool.true_and] at h
        exact h
      rw [List.foldlM_cons, processRecord_eq p st hr']
      exact ih _ hrest

theorem processFile_eq {fu : Bool} {f : FileItem} (st : LoadState)
    (h : fileCompletes fu f = true) :
    processFile fu st f = .ok (pureStep fu st f) := by
  obtain ⟨fp, frd, fpr⟩ := f
  cases hr : frd with
  | jsonErrThenXmlRaise nwf =>
      simp only [fileCompletes, hr] at h
      exact absurd h (by simp)
  | otherReadErr =>
      simp [processFile, hr, pureStep, fileMarks, fileActions, extractedRecs]
  | jsonOk =>
      cases hp : fpr with
      | none =>
          simp [processFile, hr, hp, pureStep, fileMarks, fileActions,
            extractedRecs]
      | some recs =>
          have hrec : ∀ r ∈ recs, recAborts fu r = false := by
            intro r hrr
            simp only [fileCompletes, hr, extractedRecs, hp,
              Option.getD_some] at h
            simpa using List.all_eq_true.mp h r hrr
          simp only [processFile, hr, hp]
          rw [foldlM_processRecord_eq fp recs st hrec]
          simp [pureStep, fileMarks, fileActions, extractedRecs, hr, hp]
  | jsonErrThenXmlOk =>
      cases hp : fpr with
      | none =>
          simp [processFile, hr, hp, pureStep, fileMarks, fileActions,
            extractedRecs]
      | some recs =>
          have hrec : ∀ r ∈ recs, recAborts fu r = false := by
            intro r hrr
            simp only [fileCompletes, hr, extractedRecs, hp,
              Option.getD_some] at h
            simpa using List.all_eq_true.mp h r hrr
          simp only [processFile, hr, hp]
          rw [foldlM_processRecord_eq fp recs st hrec]
          simp [pureStep, fileMarks, fileActions, extractedRecs, hr, hp]

theorem processFile_err {fu : Bool} {f : FileItem} (st : LoadState)
    (h : fileCompletes fu f = false) :
    ∃ e, processFile fu st f = .error e := by
  obtain ⟨fp, frd, fpr⟩ := f
  cases hr : frd with
  | jsonErrThenXmlRaise nwf =>
      exact ⟨.xmlParseExc nwf, by simp [processFile, hr]⟩
  | otherReadErr =>
      simp only [fileCompletes, hr, extractedRecs] at h
      simp at h
  | jsonOk =>
      cases hp : fpr with
      | none =>
          simp only [fileCompletes, hr, extractedRecs, hp] at h
          simp at h
      | some recs =>
          simp only [fileCompletes, hr, extractedRecs, hp,
            Option.getD_some] at h
          exact ⟨.updateExc, by
            simp only [processFile, hr, hp]
            exact foldlM_processRecord_err fp st h⟩
  | jsonErrThenXmlOk =>
      cases hp : fpr with
      | none =>
          simp only [fileCompletes, hr, extractedRecs, hp] at h
          simp at h
      | some recs =>
          simp only [fileCompletes, hr, extractedRecs, hp,
            Option.getD_some] at h
          exact ⟨.updateExc, by
            simp only [processFile, hr, hp]
            exact foldlM_processRecord_err fp st h⟩

theorem foldlM_processFile_eq {fu : Bool} (fs : List FileItem)
    (st : LoadState) (h : ∀ f ∈ fs, fileCompletes fu f = true) :
    fs.foldlM (processFile fu) st = .ok (fs.foldl (pureStep fu) st) := by
  induction fs generalizing st with
  | nil => rfl
  | cons f rest ih =>
    rw [List.foldlM_cons, processFile_eq st (h f (by simp))]
    show rest.foldlM (processFile fu) _ = _
    rw [ih _ (fun x hx => h x (by simp [hx])), List.foldl_cons]

theorem foldlM_processFile_ok_inv {fu : Bool} {fs : List FileItem}
    {st0 st : LoadState} (h : fs.foldlM (processFile fu) st0 = .ok st) :
    ∀ f ∈ fs, fileCompletes fu f = true := by
  induction fs generalizing st0 with
  | nil => intro f hf; simp at hf
  | cons f rest ih =>
    intro g hg
    rw [List.foldlM_cons] at h
    cases hpf : processFile fu st0 f with
    | error e =>
        rw [hpf] at h
        have hcontra : (Except.error e : Except PyExc LoadState) = .ok st := h
        cases hcontra
    | ok st1 =>
        rw [hpf] at h
        have hrest : rest.foldlM (processFile fu) st1 = .ok st := h
        rcases List.mem_cons.mp hg with rfl | hg'
        · by_contra hc
          have hfc : fileCompletes fu g = false := by
            cases hcase : fileCompletes fu g
            · rfl
            · exact absurd hcase hc
          obtain ⟨e, he⟩ := processFile_err st0 hfc
          rw [he] at hpf
          exact absurd hpf (by simp)
        · exact ih hrest g hg'

theorem sortFiles_perm (files : List FileItem) :
    (sortFiles files).Perm files :=
  List.perm_insertionSort _ files

theorem mem_sortFiles {files : List FileItem} {f : FileItem} :
    f ∈ sortFiles files ↔ f ∈ files :=
  (sortFiles_perm files).mem_iff

theorem sortFiles_sorted (files : List FileItem) :
    List.Sorted (fun f g : FileItem => pyStrLe f.path g.path = true)
      (sortFiles files) :=
  haveI : IsTotal FileItem (fun f g : FileItem => pyStrLe f.path g.path = true) :=
    ⟨fun f g => pyStrLe_total f.path g.path⟩
  haveI : IsTrans FileItem (fun f g : FileItem => pyStrLe f.path g.path = true) :=
    ⟨fun _ _ _ => pyStrLe_trans⟩
  List.sorted_insertionSort _ files

theorem load_records_eq {fu : Bool} {files : List FileItem}
    (h : ∀ f ∈ files, fileCompletes fu f = true) :
    load_records fu files =
      .ok ((sortFiles files).foldl (pureStep fu) ⟨[], []⟩) :=
  foldlM_processFile_eq (sortFiles files) ⟨[], []⟩
    (fun f hf => h f (mem_sortFiles.mp hf))

theorem load_records_ok_inv {fu : Bool} {files : List FileItem}
    {st : LoadState} (h : load_records fu files = .ok st) :
    (∀ f ∈ files, fileCompletes fu f = true) ∧
      st = (sortFiles files).foldl (pureStep fu) ⟨[], []⟩ := by
  have hall : ∀ f ∈ sortFiles files, fileCompletes fu f = true :=
    foldlM_processFile_ok_inv h
  have hall' : ∀ f ∈ files, fileCompletes fu f = true :=
    fun f hf => hall f (mem_sortFiles.mpr hf)
  refine ⟨hall', ?_⟩
  have := load_records_eq hall'
  rw [h] at this
  exact (Except.ok.injEq _ _).mp this

theorem foldl_pureStep_loaded_mem {fu : Bool} (fs : List FileItem)
    (st : LoadState) (p : String) :
    p ∈ (fs.foldl (pureStep fu) st).loaded ↔
      p ∈ st.loaded ∨ ∃ f ∈ fs, fileMarks fu f = true ∧ f.path = p := by
  induction fs generalizing st with
  | nil => simp
  | cons f rest ih =>
    rw [List.foldl_cons, ih]
    by_cases hm : fileMarks fu f = true
    · simp only [pureStep, hm, if_true, ite_true, mem_addLoaded]
      constructor
      · rintro ((hp | rfl) | ⟨g, hg, hgm, rfl⟩)
        · exact .inl hp
        · exact .inr ⟨f, by simp, hm, rfl⟩
        · exact .inr ⟨g, by simp [hg], hgm, rfl⟩
      · rintro (hp | ⟨g, hg, hgm, rfl⟩)
        · exact .inl (.inl hp)
        · rcases List.mem_cons.mp hg with rfl | hg'
          · exact .inl (.inr rfl)
          · exact .inr ⟨g, hg', hgm, rfl⟩
    · have hm' : fileMarks fu f = false := by
        cases hcase : fileMarks fu f
        · rfl
        · exact absurd hcase hm
      simp only [pureStep, hm', ite_false]
      constructor
      · rintro (hp | ⟨g, hg, hgm, rfl⟩)
        · exact .inl hp
        · exact .inr ⟨g, by simp [hg], hgm, rfl⟩
      · rintro (hp | ⟨g, hg, hgm, rfl⟩)
        · exact .inl hp
        · rcases List.mem_cons.mp hg with rfl | hg'
          · exact absurd hgm hm
          · exact .inr ⟨g, hg', hgm, rfl⟩

theorem foldl_pureStep_actions {fu : Bool} (fs : List FileItem)
    (st : LoadState) :
    (fs.foldl (pureStep fu) st).actions =
      st.actions ++ fs.flatMap (fileActions fu) := by
  induction fs generalizing st with
  | nil => simp
  | cons f rest ih =>
    rw [List.foldl_cons, ih]
    simp [pureStep, List.append_assoc]

theorem foldl_pureStep_nodup {fu : Bool} (fs : List FileItem)
    (st : LoadState) (h : st.loaded.Nodup) :
    (fs.foldl (pureStep fu) st).loaded.Nodup := by
  induction fs generalizing st with
  | nil => exact h
  | cons f rest ih =>
    rw [List.foldl_cons]
    apply ih
    by_cases hm : fileMarks fu f = true
    · simpa [pureStep, hm] using nodup_addLoaded h f.path
    · have hm' : fileMarks fu f = false := by
        cases hcase : fileMarks fu f
        · rfl
        · exact absurd hcase hm
      simpa [pureStep, hm'] using h

theorem updateCall_mem_recActions {fu : Bool} {p q : String} {r : RecItem} :
    Action.updateCall q ∈ recActions fu p r ↔
      fu = true ∧ q = p ∧ insertOk r.insert = false := by
  cases hio : insertOk r.insert <;> cases fu <;>
    simp [recActions, hio]

theorem updateCall_mem_fileActions {fu : Bool} {q : String} {f : FileItem} :
    Action.updateCall q ∈ fileActions fu f ↔
      fu = true ∧ q = f.path ∧
        ∃ r ∈ extractedRecs f, insertOk r.insert = false := by
  obtain ⟨fp, frd, fpr⟩ := f
  cases frd with
  | jsonErrThenXmlRaise nwf => simp [fileActions, extractedRecs]
  | otherReadErr => simp [fileActions, extractedRecs]
  | jsonOk =>
      cases fpr with
      | none => simp [fileActions, extractedRecs]
      | some recs =>
          simp only [fileActions, extractedRecs, Option.getD_some,
            List.mem_flatMap]
          constructor
          · rintro ⟨r, hr, hmem⟩
            obtain ⟨hfu, rfl, hio⟩ := updateCall_mem_recActions.mp hmem
            exact ⟨hfu, rfl, r, hr, hio⟩
          · rintro ⟨hfu, rfl, r, hr, hio⟩
            exact ⟨r, hr, updateCall_mem_recActions.mpr ⟨hfu, rfl, hio⟩⟩
  | jsonErrThenXmlOk =>
      cases fpr with
      | none => simp [fileActions, extractedRecs]
      | some recs =>
          simp only [fileActions, extractedRecs, Option.getD_some,
            List.mem_flatMap]
          constructor
          · rintro ⟨r, hr, hmem⟩
            obtain ⟨hfu, rfl, hio⟩ := updateCall_mem_recActions.mp hmem
            exact ⟨hfu, rfl, r, hr, hio⟩
          · rintro ⟨hfu, rfl, r, hr, hio⟩
            exact ⟨r, hr, updateCall_mem_recActions.mpr ⟨hfu, rfl, hio⟩⟩

theorem load_loaded_mem {fu : Bool} {files : List FileItem} {st : LoadState}
    (h : load_records fu files = .ok st) (p : String) :
    p ∈ st.loaded ↔ ∃ f ∈ files, fileMarks fu f = true ∧ f.path = p := by
  obtain ⟨-, rfl⟩ := load_records_ok_inv h
  rw [foldl_pureStep_loaded_mem]
  simp only [List.not_mem_nil, false_or]
  constructor
  · rintro ⟨f, hf, hm, rfl⟩
    exact ⟨f, mem_sortFiles.mp hf, hm, rfl⟩
  · rintro ⟨f, hf, hm, rfl⟩
    exact ⟨f, mem_sortFiles.mpr hf, hm, rfl⟩

theorem load_actions_eq {fu : Bool} {files : List FileItem} {st : LoadState}
    (h : load_records fu files = .ok st) :
    st.actions = (sortFiles files).flatMap (fileActions fu) := by
  obtain ⟨-, rfl⟩ := load_records_ok_inv h
  rw [foldl_pureStep_actions]
  rfl

theorem load_updateCall_mem {fu : Bool} {files : List FileItem}
    {st : LoadState} (h : load_records fu files = .ok st) (q : String) :
    Action.updateCall q ∈ st.actions ↔
      fu = true ∧ ∃ f ∈ files, f.path = q ∧
        ∃ r ∈ extractedRecs f, insertOk r.insert = false := by
  rw [load_actions_eq h, List.mem_flatMap]
  constructor
  · rintro ⟨f, hf, hmem⟩
    obtain ⟨hfu, rfl, hr⟩ := updateCall_mem_fileActions.mp hmem
    exact ⟨hfu, f, mem_sortFiles.mp hf, rfl, hr⟩
  · rintro ⟨hfu, f, hf, rfl, hr⟩
    exact ⟨f, mem_sortFiles.mpr hf,
      updateCall_mem_fileActions.mpr ⟨hfu, rfl, hr⟩⟩

theorem recActions_mem_fileActions {fu : Bool} {f : FileItem} {r : RecItem}
    (hr : r ∈ extractedRecs f) {a : Action}
    (ha : a ∈ recActions fu f.path r) : a ∈ fileActions fu f := by
  obtain ⟨fp, frd, fpr⟩ := f
  cases frd with
  | jsonErrThenXmlRaise nwf => simp [extractedRecs] at hr
  | otherReadErr => simp [extractedRecs] at hr
  | jsonOk =>
      cases fpr with
      | none => simp [extractedRecs] at hr
      | some recs =>
          simp only [extractedRecs, Option.getD_some] at hr
          exact List.mem_flatMap.mpr ⟨r, hr, ha⟩
  | jsonErrThenXmlOk =>
      cases fpr with
      | none => simp [extractedRecs] at hr
      | some recs =>
          simp only [extractedRecs, Option.getD_some] at hr
          exact List.mem_flatMap.mpr ⟨r, hr, ha⟩

theorem fileMarks_iff {fu : Bool} {f : FileItem} :
    fileMarks fu f = true ↔
      ∃ r ∈ extractedRecs f, (insertOk r.insert = true ∨ fu = true) := by
  simp [fileMarks, recMarks, List.any_eq_true, Bool.or_eq_true]

/-! ## Pure description of one `export_records` run -/

/-- Actions emitted by one record iteration of the export loop. -/
def expActionsOf (dirpath : String) (secureFilename : String → String)
    (r : ExpRecord) : List ExpAction :=
  if r.writeFails then
    .logWriteError (exportFilename dirpath secureFilename r) ::
      (if r.leftoverExists then
        [.removedFile (exportFilename dirpath secureFilename r)] else [])
  else
    [.wroteFile (exportFilename dirpath secureFilename r)
      (xmlDecl ++ r.xml)]

theorem foldl_export_actions (dirpath : String) (sf : String → String)
    (records : List ExpRecord) (st : ExportState) :
    (records.foldl (processExport dirpath sf) st).actions =
      st.actions ++ records.flatMap (expActionsOf dirpath sf) := by
  induction records generalizing st with
  | nil => simp
  | cons r rest ih =>
    rw [List.foldl_cons, ih]
    by_cases hw : r.writeFails = true
    · by_cases hl : r.leftoverExists = true <;>
        simp [processExport, expActionsOf, hw, hl, List.append_assoc]
    · have hw' : r.writeFails = false := by
        cases hcase : r.writeFails
        · rfl
        · exact absurd hcase hw
      simp [processExport, expActionsOf, hw', List.append_assoc]

theorem foldl_export_exported_mem (dirpath : String) (sf : String → String)
    (records : List ExpRecord) (st : ExportState) (p : String) :
    p ∈ (records.foldl (processExport dirpath sf) st).exported ↔
      p ∈ st.exported ∨ ∃ r ∈ records, r.writeFails = false ∧
        p = exportFilename dirpath sf r := by
  induction records generalizing st with
  | nil => simp
  | cons r rest ih =>
    rw [List.foldl_cons, ih]
    by_cases hw : r.writeFails = true
    · simp only [processExport, hw, if_true, ite_true]
      constructor
      · rintro (hp | ⟨g, hg, hgw, rfl⟩)
        · exact .inl hp
        · exact .inr ⟨g, by simp [hg], hgw, rfl⟩
      · rintro (hp | ⟨g, hg, hgw, rfl⟩)
        · exact .inl hp
        · rcases List.mem_cons.mp hg with rfl | hg'
          · rw [hw] at hgw; cases hgw
          · exact .inr ⟨g, hg', hgw, rfl⟩
    · have hw' : r.writeFails = false := by
        cases hcase : r.writeFails
        · rfl
        · exact absurd hcase hw
      simp only [processExport, hw', Bool.false_eq_true, if_false, ite_false,
        mem_addLoaded]
      constructor
      · rintro ((hp | rfl) | ⟨g, hg, hgw, rfl⟩)
        · exact .inl hp
        · exact .inr ⟨r, by simp, hw', rfl⟩
        · exact .inr ⟨g, by simp [hg], hgw, rfl⟩
      · rintro (hp | ⟨g, hg, hgw, rfl⟩)
        · exact .inl (.inl hp)
        · rcases List.mem_cons.mp hg with rfl | hg'
          · exact .inl (.inr rfl)
          · exact .inr ⟨g, hg', hgw, rfl⟩

theorem wroteFile_mem_expActionsOf {dirpath : String} {sf : String → String}
    {r : ExpRecord} {fn content : String} :
    ExpAction.wroteFile fn content ∈ expActionsOf dirpath sf r ↔
      r.writeFails = false ∧ fn = exportFilename dirpath sf r ∧
        content = xmlDecl ++ r.xml := by
  by_cases hw : r.writeFails = true
  · by_cases hl : r.leftoverExists = true <;>
      simp [expActionsOf, hw, hl]
  · have hw' : r.writeFails = false := by
      cases hcase : r.writeFails
      · rfl
      · exact absurd hcase hw
    simp [expActionsOf, hw']

/-! ## Claims about `load_records` -/

/-- C1, counterexample.  The claim says a file path appears in the returned
successfully-processed collection only if every record extracted from it was
inserted or updated without a non-conflict storage error.  Counterexample:
with `forceUpdate = false`, a file whose first record inserts fine and whose
second record fails with a storage error is still returned — the code adds
the file to `loaded_files` as soon as any one record succeeds and never
removes it. -/
theorem C1_counterexample :
    load_records false
        [⟨"a.xml", .jsonOk, some [⟨.ok, false⟩, ⟨.storageErr true, false⟩]⟩] =
      .ok ⟨["a.xml"],
        [.insertCall "a.xml", .logInserted "a.xml",
         .insertCall "a.xml", .logNotInserted "a.xml" true]⟩ := by rfl

/-- C1, amended.  A file path appears in the returned collection iff at
least one record extracted from that file was inserted successfully or,
with `forceUpdate` true, went through the update path after a failed
insert; a file with one successful and one failed record still appears. -/
theorem C1_amended_loaded_iff {fu : Bool} {files : List FileItem}
    {st : LoadState} (h : load_records fu files = .ok st) (p : String) :
    p ∈ st.loaded ↔
      ∃ f ∈ files, f.path = p ∧
        ∃ r ∈ extractedRecs f, (insertOk r.insert = true ∨ fu = true) := by
  rw [load_loaded_mem h p]
  constructor
  · rintro ⟨f, hf, hm, rfl⟩
    exact ⟨f, hf, rfl, fileMarks_iff.mp hm⟩
  · rintro ⟨f, hf, rfl, hr⟩
    exact ⟨f, hf, fileMarks_iff.mpr hr, rfl⟩

/-- C1, witness for the amended theorem at a concrete run. -/
theorem C1_amended_witness :
    "a.xml" ∈
        (⟨["a.xml"],
          [.insertCall "a.xml", .logInserted "a.xml",
           .insertCall "a.xml", .logNotInserted "a.xml" true]⟩ :
          LoadState).loaded ↔
      ∃ f ∈ [(⟨"a.xml", .jsonOk,
                some [⟨.ok, false⟩, ⟨.storageErr true, false⟩]⟩ : FileItem)],
        f.path = "a.xml" ∧
          ∃ r ∈ extractedRecs f, (insertOk r.insert = true ∨ false = true) :=
  @C1_amended_loaded_iff false
    [⟨"a.xml", .jsonOk, some [⟨.ok, false⟩, ⟨.storageErr true, false⟩]⟩]
    ⟨["a.xml"],
     [.insertCall "a.xml", .logInserted "a.xml",
      .insertCall "a.xml", .logNotInserted "a.xml" true]⟩
    (by rfl) "a.xml"

/-- C2, counterexample.  The claim says a non-conflict storage failure never
leads to `repository.update` and never marks the file processed, regardless
of `forceUpdate`.  Counterexample: with `forceUpdate = true` the code calls
`repo.update` inside `except Exception` on ANY insert failure — it has no
conflict/storage distinction — and marks the file processed. -/
theorem C2_counterexample :
    load_records true [⟨"a.xml", .jsonOk, some [⟨.storageErr false, false⟩]⟩] =
      .ok ⟨["a.xml"],
        [.insertCall "a.xml", .updateCall "a.xml", .logUpdated "a.xml"]⟩ := by
  rfl

/-- C2, amended.  With `forceUpdate` false, an insert failure (conflict or
storage-level alike) is logged with the `DBAPIError`-sensitive message,
`repository.update` is never called, and only files with a successfully
inserted record are marked.  With `forceUpdate` true, any insert failure —
the code cannot tell a conflict from a storage error — causes
`repository.update` to be called for exactly the files having a failed
record, which are then marked processed. -/
theorem C2_amended_update_policy :
    (∀ (files : List FileItem) (st : LoadState),
        load_records false files = .ok st →
          ∀ q, Action.updateCall q ∉ st.actions) ∧
    (∀ (files : List FileItem) (st : LoadState),
        load_records false files = .ok st →
          ∀ p, p ∈ st.loaded ↔
            ∃ f ∈ files, f.path = p ∧
              ∃ r ∈ extractedRecs f, insertOk r.insert = true) ∧
    (∀ (files : List FileItem) (st : LoadState),
        load_records false files = .ok st →
          ∀ f ∈ files, ∀ r ∈ extractedRecs f, insertOk r.insert = false →
            Action.logNotInserted f.path (dbapiFlag r.insert) ∈ st.actions) ∧
    (∀ (files : List FileItem) (st : LoadState),
        load_records true files = .ok st →
          ∀ q, Action.updateCall q ∈ st.actions ↔
            ∃ f ∈ files, f.path = q ∧
              ∃ r ∈ extractedRecs f, insertOk r.insert = false) ∧
    (∀ (files : List FileItem) (st : LoadState),
        load_records true files = .ok st →
          ∀ f ∈ files, ∀ r ∈ extractedRecs f, insertOk r.insert = false →
            f.path ∈ st.loaded) := by
  refine ⟨?_, ?_, ?_, ?_, ?_⟩
  · intro files st h q hq
    obtain ⟨hfu, -⟩ := (load_updateCall_mem h q).mp hq
    cases hfu
  · intro files st h p
    rw [C1_amended_loaded_iff h p]
    simp
  · intro files st h f hf r hr hio
    rw [load_actions_eq h]
    refine List.mem_flatMap.mpr ⟨f, mem_sortFiles.mpr hf,
      recActions_mem_fileActions hr ?_⟩
    simp [recActions, hio]
  · intro files st h q
    rw [load_updateCall_mem h q]
    simp
  · intro files st h f hf r hr hio
    exact (load_loaded_mem h f.path).mpr
      ⟨f, hf, fileMarks_iff.mpr ⟨r, hr, Or.inr rfl⟩, rfl⟩

/-- C2, witness for the amended theorem at a concrete run. -/
theorem C2_amended_witness :
    Action.updateCall "a.xml" ∉
      (⟨["a.xml"],
        [.insertCall "a.xml", .logInserted "a.xml",
         .insertCall "a.xml", .logNotInserted "a.xml" true]⟩ :
        LoadState).actions :=
  C2_amended_update_policy.1
    [⟨"a.xml", .jsonOk, some [⟨.ok, false⟩, ⟨.storageErr true, false⟩]⟩]
    _ (by rfl) "a.xml"

/-- C3, code bug.  `etree.parse` runs inside the `except JSONDecodeError`
handler, so the `XMLSyntaxError` it raises for a malformed XML file is NOT
caught by the sibling `except etree.XMLSyntaxError: continue` clause (which
only guards the `try` block) and propagates out of `load_records`: with two
files of which one is malformed, the run aborts instead of returning a
success set of size one. -/
theorem C3_code_bug :
    load_records false
        [⟨"a.xml", .jsonOk, some [⟨.ok, false⟩]⟩,
         ⟨"b.xml", .jsonErrThenXmlRaise true, none⟩] =
      .error (.xmlParseExc true) := by rfl

/-- C10.  The returned collection of processed file paths has no duplicates
and every element is the path of one of the candidate files. -/
theorem C10_loaded_nodup_subset {fu : Bool} {files : List FileItem}
    {st : LoadState} (h : load_records fu files = .ok st) :
    st.loaded.Nodup ∧ ∀ p ∈ st.loaded, p ∈ files.map FileItem.path := by
  obtain ⟨-, rfl⟩ := load_records_ok_inv h
  refine ⟨foldl_pureStep_nodup _ _ (by simp), ?_⟩
  intro p hp
  rw [foldl_pureStep_loaded_mem] at hp
  rcases hp with hp | ⟨f, hf, -, rfl⟩
  · simp at hp
  · exact List.mem_map.mpr ⟨f, mem_sortFiles.mp hf, rfl⟩

/-- C10, witness at a concrete run. -/
theorem C10_witness :
    (["a.xml"] : List String).Nodup ∧
      ∀ p ∈ (["a.xml"] : List String), p ∈
        ([⟨"a.xml", .jsonOk, some [⟨.ok, false⟩, ⟨.storageErr true, false⟩]⟩] :
          List FileItem).map FileItem.path :=
  @C10_loaded_nodup_subset false
    [⟨"a.xml", .jsonOk, some [⟨.ok, false⟩, ⟨.storageErr true, false⟩]⟩]
    ⟨["a.xml"],
     [.insertCall "a.xml", .logInserted "a.xml",
      .insertCall "a.xml", .logNotInserted "a.xml" true]⟩
    (by rfl)

/-- C5.  `load_records` iterates over `sorted(file_list)`: the processing
order is sorted in code-point lexicographic order on the full path, it is
invariant under permutations of the scanned list (so two runs over the same
unchanged directory process the same files in the same order), and it
processes exactly the candidate files. -/
theorem C5_processing_order :
    (∀ (fu : Bool) (files : List FileItem),
        load_records fu files =
          (sortFiles files).foldlM (processFile fu) ⟨[], []⟩) ∧
    (∀ files : List FileItem,
        List.Sorted (fun a b : String => pyStrLe a b = true)
          ((sortFiles files).map FileItem.path)) ∧
    (∀ l1 l2 : List FileItem, l1.Perm l2 →
        (sortFiles l1).map FileItem.path = (sortFiles l2).map FileItem.path) ∧
    (∀ files : List FileItem, (sortFiles files).Perm files) := by
  refine ⟨fun _ _ => rfl, ?_, ?_, sortFiles_perm⟩
  · intro files
    exact List.Pairwise.map FileItem.path (fun _ _ hab => hab)
      (sortFiles_sorted files)
  · intro l1 l2 hperm
    exact @List.eq_of_perm_of_sorted String
      (fun a b : String => pyStrLe a b = true)
      ⟨fun _ _ => pyStrLe_antisymm⟩ _ _
      (((sortFiles_perm l1).trans hperm |>.trans
        (sortFiles_perm l2).symm).map FileItem.path)
      (List.Pairwise.map FileItem.path (fun _ _ hab => hab)
        (sortFiles_sorted l1))
      (List.Pairwise.map FileItem.path (fun _ _ hab => hab)
        (sortFiles_sorted l2))

/-- C5, witness: two enumeration orders of the same directory yield the
same processing order. -/
theorem C5_witness :
    (sortFiles [⟨"b.xml", .jsonOk, none⟩, ⟨"a.xml", .jsonOk, none⟩]).map
        FileItem.path =
      (sortFiles [⟨"a.xml", .jsonOk, none⟩, ⟨"b.xml", .jsonOk, none⟩]).map
        FileItem.path :=
  C5_processing_order.2.2.1 _ _ (by decide)

/-! ## Claim about the source scanner -/

theorem endsWith_json_not_xml (name : String)
    (h : strEndsWith name ".json" = true) :
    strEndsWith name ".xml" = false := by
  have hj : (".json" : String).data.reverse = ['n', 'o', 's', 'j', '.'] := by
    decide
  have hx : (".xml" : String).data.reverse = ['l', 'm', 'x', '.'] := by
    decide
  unfold strEndsWith at h ⊢
  rw [hj] at h
  rw [hx]
  cases hrev : name.data.reverse with
  | nil => rw [hrev] at h; simp [leadMatch] at h
  | cons c cs =>
      rw [hrev] at h
      simp only [leadMatch, Bool.and_eq_true, beq_iff_eq] at h
      obtain ⟨rfl, -⟩ := h
      simp [leadMatch]

/-- C4, counterexample.  The claim says the non-recursive candidate list
is the *files* matching `*.xml` and `*.json` directly inside the
directory.  Counterexample: `glob` pattern-matches any directory entry, so
a subdirectory named `sub.xml` is collected into `file_list` although it
is not a file — here the directory contains no regular file at all, yet
the candidate list is non-empty. -/
theorem C4_counterexample :
    scan_files (.directory "top" [.dir "sub.xml" [.file "inner.xml"]])
        false = ["top/sub.xml"] ∧
    fileNames [.dir "sub.xml" [.file "inner.xml"]] = [] := by
  exact ⟨by decide, rfl⟩

/-- C4, amended.  The scanner: a single file yields exactly that file;
recursive mode yields exactly the joined paths of the files anywhere in
the tree whose name ends in `.xml` (and a name ending in `.json` never
ends in `.xml`, so JSON files are excluded); non-recursive mode yields
exactly the glob matches of `*.xml` and `*.json` among the directory
entries — regular files or subdirectories — directly inside the
directory, with no deeper recursion. -/
theorem C4_scanner :
    (∀ (p : String) (r : Bool), scan_files (.singleFile p) r = [p]) ∧
    (∀ (root : String) (es : List Entry) (p : String),
        p ∈ scan_files (.directory root es) true ↔
          ∃ q ∈ treeFiles root es, strEndsWith q.2 ".xml" = true ∧
            p = pathJoin q.1 q.2) ∧
    (∀ name : String, strEndsWith name ".json" = true →
        strEndsWith name ".xml" = false) ∧
    (∀ (root : String) (es : List Entry) (p : String),
        p ∈ scan_files (.directory root es) false ↔
          ∃ n ∈ entryNames es,
            (globMatch ".xml" n = true ∨ globMatch ".json" n = true) ∧
            p = pathJoin root n) := by
  refine ⟨fun _ _ => rfl, ?_, endsWith_json_not_xml, ?_⟩
  · intro root es p
    simp only [scan_files, ite_true, treeFiles, List.mem_flatMap,
      List.mem_map, List.mem_filter]
    constructor
    · rintro ⟨rd, hrd, n, ⟨hn, hend⟩, rfl⟩
      exact ⟨(rd.1, n), ⟨rd, hrd, n, hn, rfl⟩, hend, rfl⟩
    · rintro ⟨q, ⟨rd, hrd, n, hn, rfl⟩, hend, rfl⟩
      exact ⟨rd, hrd, n, ⟨hn, hend⟩, rfl⟩
  · intro root es p
    simp only [scan_files, Bool.false_eq_true, ite_false, globEntries,
      List.mem_append, List.mem_map, List.mem_filter]
    constructor
    · rintro (⟨n, ⟨hn, hm⟩, rfl⟩ | ⟨n, ⟨hn, hm⟩, rfl⟩)
      · exact ⟨n, hn, .inl hm, rfl⟩
      · exact ⟨n, hn, .inr hm, rfl⟩
    · rintro ⟨n, hn, hm | hm, rfl⟩
      · exact .inl ⟨n, ⟨hn, hm⟩, rfl⟩
      · exact .inr ⟨n, ⟨hn, hm⟩, rfl⟩

/-- C4, witness at a concrete tree: `sub/b.xml` is collected recursively,
`c.json` never ends in `.xml`, and the non-recursive characterization
holds at the directory-named-`sub.xml` tree of the counterexample. -/
theorem C4_witness :
    strEndsWith "c.json" ".xml" = false ∧
    ("top/sub/b.xml" ∈
        scan_files (.directory "top"
          [.file "a.xml", .dir "sub" [.file "b.xml"], .file "c.json"]) true ↔
      ∃ q ∈ treeFiles "top"
          [.file "a.xml", .dir "sub" [.file "b.xml"], .file "c.json"],
        strEndsWith q.2 ".xml" = true ∧ "top/sub/b.xml" = pathJoin q.1 q.2) ∧
    ("top/sub.xml" ∈
        scan_files (.directory "top" [.dir "sub.xml" [.file "inner.xml"]])
          false ↔
      ∃ n ∈ entryNames [Entry.dir "sub.xml" [.file "inner.xml"]],
        (globMatch ".xml" n = true ∨ globMatch ".json" n = true) ∧
        "top/sub.xml" = pathJoin "top" n) :=
  ⟨C4_scanner.2.2.1 "c.json" (by decide),
   C4_scanner.2.1 "top" _ "top/sub/b.xml",
   C4_scanner.2.2.2 "top" _ "top/sub.xml"⟩

/-! ## Claims about `export_records` -/

/-- C6, counterexample.  The claim says the XML declaration line is
prepended only for XML records and only when the document does not already
begin with one.  Counterexample: the code writes the declaration
unconditionally before every record — here a JSON record (extension
`json`) is written with the XML declaration prepended to its raw
document. -/
theorem C6_counterexample :
    export_records "/out" (fun s => s)
        [⟨"id1", "application/json", "[1]", false, false⟩] =
      ⟨["/out/id1.json"],
       [.wroteFile "/out/id1.json" (xmlDecl ++ "[1]")]⟩ ∧
    xmlDecl ++ "[1]" ≠ "[1]" := by
  exact ⟨by decide, by decide⟩

/-- C6, amended.  The extension is `json` when the record's content type
contains `json` and `xml` otherwise; the written content is always the XML
declaration line followed by the raw stored document verbatim, for every
record, regardless of content type and of whether the document already
begins with a declaration. -/
theorem C6_amended_written_content (dirpath : String)
    (sf : String → String) (records : List ExpRecord) (fn content : String) :
    ExpAction.wroteFile fn content ∈
        (export_records dirpath sf records).actions ↔
      ∃ r ∈ records, r.writeFails = false ∧
        fn = pathJoin dirpath (sf r.identifier ++ "." ++
          (if strContains r.metadataType "json" then "json" else "xml")) ∧
        content = xmlDecl ++ r.xml := by
  have ha : (export_records dirpath sf records).actions =
      records.flatMap (expActionsOf dirpath sf) := by
    rw [export_records, foldl_export_actions]
    rfl
  rw [ha, List.mem_flatMap]
  constructor
  · rintro ⟨r, hr, hmem⟩
    obtain ⟨hw, _rfl1, rfl⟩ := wroteFile_mem_expActionsOf.mp hmem
    exact ⟨r, hr, hw, _rfl1, rfl⟩
  · rintro ⟨r, hr, hw, rfl, rfl⟩
    exact ⟨r, hr, wroteFile_mem_expActionsOf.mpr ⟨hw, rfl, rfl⟩⟩

/-- C6, witness for the amended theorem at a concrete run. -/
theorem C6_amended_witness :
    ExpAction.wroteFile "/out/id1.json" (xmlDecl ++ "[1]") ∈
        (export_records "/out" (fun s => s)
          [⟨"id1", "application/json", "[1]", false, false⟩]).actions ↔
      ∃ r ∈ [(⟨"id1", "application/json", "[1]", false, false⟩ : ExpRecord)],
        r.writeFails = false ∧
        "/out/id1.json" = pathJoin "/out" ((fun s => s) r.identifier ++ "." ++
          (if strContains r.metadataType "json" then "json" else "xml")) ∧
        xmlDecl ++ "[1]" = xmlDecl ++ r.xml :=
  C6_amended_written_content "/out" (fun s => s)
    [⟨"id1", "application/json", "[1]", false, false⟩]
    "/out/id1.json" (xmlDecl ++ "[1]")

/-- C7.  A write failure is logged, the leftover file at that path is
removed, the loop continues (every record is handled), and the returned
collection is exactly the set of output paths with a fully successful
write; a path all of whose records failed to write is not in it. -/
theorem C7_export_failure_isolation (dirpath : String)
    (sf : String → String) (records : List ExpRecord) :
    (∀ p, p ∈ (export_records dirpath sf records).exported ↔
        ∃ r ∈ records, r.writeFails = false ∧
          p = exportFilename dirpath sf r) ∧
    (∀ r ∈ records, r.writeFails = true →
        ExpAction.logWriteError (exportFilename dirpath sf r) ∈
            (export_records dirpath sf records).actions ∧
          (r.leftoverExists = true →
            ExpAction.removedFile (exportFilename dirpath sf r) ∈
              (export_records dirpath sf records).actions)) ∧
    (∀ p, (∀ r ∈ records, p = exportFilename dirpath sf r →
            r.writeFails = true) →
        p ∉ (export_records dirpath sf records).exported) := by
  have ha : (export_records dirpath sf records).actions =
      records.flatMap (expActionsOf dirpath sf) := by
    rw [export_records, foldl_export_actions]
    rfl
  have he : ∀ p, p ∈ (export_records dirpath sf records).exported ↔
      ∃ r ∈ records, r.writeFails = false ∧
        p = exportFilename dirpath sf r := by
    intro p
    rw [export_records, foldl_export_exported_mem]
    simp
  refine ⟨he, ?_, ?_⟩
  · intro r hr hw
    constructor
    · rw [ha]
      exact List.mem_flatMap.mpr ⟨r, hr, by simp [expActionsOf, hw]⟩
    · intro hl
      rw [ha]
      exact List.mem_flatMap.mpr ⟨r, hr, by simp [expActionsOf, hw, hl]⟩
  · intro p hall hp
    obtain ⟨r, hr, hw, rfl⟩ := (he p).mp hp
    rw [hall r hr rfl] at hw
    cases hw

/-- C7, witness at a concrete run with one failing and one succeeding
record. -/
theorem C7_witness :
    "/out/good.xml" ∈
        (export_records "/out" (fun s => s)
          [⟨"good", "application/xml", "<a/>", false, false⟩,
           ⟨"bad", "application/xml", "<b/>", true, true⟩]).exported ↔
      ∃ r ∈ [(⟨"good", "application/xml", "<a/>", false, false⟩ : ExpRecord),
             ⟨"bad", "application/xml", "<b/>", true, true⟩],
        r.writeFails = false ∧
          "/out/good.xml" = exportFilename "/out" (fun s => s) r :=
  (C7_export_failure_isolation "/out" (fun s => s)
    [⟨"good", "application/xml", "<a/>", false, false⟩,
     ⟨"bad", "application/xml", "<b/>", true, true⟩]).1 "/out/good.xml"

/-! ## Claims about `refresh_harvested_records` -/

/-- C8.  When the repository query reports zero non-local records, the run
only logs the no-op: the remote client is never constructed, no harvest
call is made, and the function completes normally. -/
theorem C8_harvest_noop (url : String) (records : List HarvestRecord) :
    refresh_harvested_records url 0 records = [.logNoRecords] ∧
    (∀ u, HarvestAction.constructClient u ∉
        refresh_harvested_records url 0 records) ∧
    (∀ s c, HarvestAction.harvestCall s c ∉
        refresh_harvested_records url 0 records) := by
  refine ⟨rfl, fun u => ?_, fun s c => ?_⟩ <;>
    simp [refresh_harvested_records]

/-- C8, witness at a concrete invocation. -/
theorem C8_witness :
    refresh_harvested_records "http://example.org/csw" 0
        [⟨"src", "sch", "id", false⟩] = [.logNoRecords] :=
  (C8_harvest_noop "http://example.org/csw" [⟨"src", "sch", "id", false⟩]).1

theorem harvestCall_mem_processHarvest {src sch : String}
    {rec : HarvestRecord} :
    HarvestAction.harvestCall src sch ∈ processHarvest rec ↔
      src = rec.source ∧ sch = normalizeSchema rec.schemaTag := by
  by_cases hf : rec.harvestFails = true
  · simp [processHarvest, hf]
  · have hf' : rec.harvestFails = false := by
      cases hcase : rec.harvestFails
      · rfl
      · exact absurd hcase hf
    simp [processHarvest, hf']

/-- C9.  A harvest call `(source, schema)` occurs exactly for the queried
records, with the source passed unchanged and the schema equal to the
stored schema except that the exact legacy identifier
`http://www.isotc211.org/2005/gmd` is rewritten to
`http://www.isotc211.org/schemas/2005/gmd/`; every other schema tag is
sent unchanged. -/
theorem C9_schema_normalization (url : String) (count : Nat)
    (records : List HarvestRecord) (h : 0 < count) :
    (∀ src sch, HarvestAction.harvestCall src sch ∈
        refresh_harvested_records url count records ↔
      ∃ r ∈ records, src = r.source ∧ sch = normalizeSchema r.schemaTag) ∧
    normalizeSchema "http://www.isotc211.org/2005/gmd" =
      "http://www.isotc211.org/schemas/2005/gmd/" ∧
    (∀ s, s ≠ "http://www.isotc211.org/2005/gmd" → normalizeSchema s = s) := by
  refine ⟨?_, by decide, fun s hs => by simp [normalizeSchema, hs]⟩
  intro src sch
  unfold refresh_harvested_records
  rw [if_pos h]
  simp only [List.mem_cons, List.mem_flatMap]
  constructor
  · rintro (hc | hc | ⟨r, hr, hmem⟩)
    · cases hc
    · cases hc
    · obtain ⟨rfl, rfl⟩ := harvestCall_mem_processHarvest.mp hmem
      exact ⟨r, hr, rfl, rfl⟩
  · rintro ⟨r, hr, rfl, rfl⟩
    exact .inr (.inr ⟨r, hr, harvestCall_mem_processHarvest.mpr ⟨rfl, rfl⟩⟩)

/-- C9, witness: the legacy rewrite applied through a concrete
invocation. -/
theorem C9_witness :
    normalizeSchema "http://www.isotc211.org/2005/gmd" =
      "http://www.isotc211.org/schemas/2005/gmd/" :=
  (C9_schema_normalization "http://example.org/csw" 1 [] (by decide)).2.1

end PycswAdmin
